import Mathlib

/-!
Verification of the whisper-meet segment-assembly pipeline and audio mixer.

The development embeds, as Lean functions over `ℚ`-valued timestamps and
`ℤ`-valued PCM samples:
* the word-grouping stage (`build_segments`) of `go_transcribe.py` /
  `go_record_and_transcribe.py`, which accumulates words into a
  speaker-keyed insertion-ordered table (`insertWord` / `groupWords`);
* the segment merger `merge_close_segments` (`go_transcribe.py`);
* the confidence scorer `calculate_speaker_confidence` (`go_transcribe.py`),
  with the Python `ZeroDivisionError` made explicit in an `Except`;
* the chunk mixer of `test_record_merge.py`
  (`mixed_data = np.clip(mic_data + sys_data.flatten(), -32768, 32767)`),
  including numpy's wrapping int16 addition and 1-d broadcasting;
* the tail of the transcription pipeline (`assignStage` / `runPipeline`):
  merge, score, the empty-segment check raising
  `ValueError("No speaker segments were created")`, and the
  generic handler that exits with status 1 writing no Markdown file.
-/

namespace WhisperMeet

/-- Word token after alignment and speaker assignment: the dict
`{"word": ..., "start": ..., "end": ..., "speaker": ...}` consumed by the
grouping loop.  Timestamps are modelled as rationals; `stop` stands for the
Python key `"end"` (`end` is reserved in Lean). -/
structure Token where
  word : String
  start : ℚ
  stop : ℚ
  speaker : String
deriving DecidableEq, Repr

/-- Speaker segment: the dict
`{"speaker": ..., "start": ..., "end": ..., "text": ...}` produced by the
grouping stage and transformed by `merge_close_segments`. -/
structure Segment where
  speaker : String
  start : ℚ
  stop : ℚ
  text : String
deriving DecidableEq, Repr

/-- Appending one word to an insertion-ordered speaker table: the effect of
`grouped[speaker].append({...})` on a `defaultdict(list)`, keys kept in
first-insertion order. -/
def insertWord : List (String × List Token) → String → Token → List (String × List Token)
  | [], sp, t => [(sp, [t])]
  | (k, ws) :: rest, sp, t =>
    if k = sp then (k, ws ++ [t]) :: rest
    else (k, ws) :: insertWord rest sp t

/-- The grouping loop of `go_transcribe.py` (lines 193-204):
`for word in word_segments: ... if word_text: grouped[speaker].append(...)`.
Tokens with empty text are skipped. -/
def groupWords (tokens : List Token) : List (String × List Token) :=
  tokens.foldl (fun acc t => if t.word ≠ "" then insertWord acc t.speaker t else acc) []

/-- One entry of `final_segments` built from a speaker's word list
(`go_transcribe.py` lines 207-218): `start = words[0]["start"]`,
`end = words[-1]["end"]`, `text = " ".join(...)`; the `if words:` guard
returns `none` on an empty list. -/
def mkSegmentOfGroup (sp : String) (ws : List Token) : Option Segment :=
  match ws with
  | [] => none
  | w :: rest =>
    some { speaker := sp, start := w.start, stop := (rest.getLastD w).stop,
           text := String.intercalate " " ((w :: rest).map Token.word) }

/-- The Speaker Segment Builder as implemented: group all words by speaker
label (insertion order of first appearance) and emit one segment per
speaker group. -/
def build_segments (tokens : List Token) : List Segment :=
  (groupWords tokens).filterMap fun p => mkSegmentOfGroup p.1 p.2

/-- Lookup of one speaker's accumulated word list in the grouping table
(`grouped[speaker]`, with the defaultdict's `[]` default). -/
def lookupGroup (sp : String) : List (String × List Token) → List Token
  | [] => []
  | (k, ws) :: rest => if k = sp then ws else lookupGroup sp rest

/-- Token sequence in which speaker A is interrupted by speaker B and then
speaks again. -/
def interruptedTokens : List Token :=
  [{ word := "a", start := 0, stop := 1, speaker := "A" },
   { word := "b", start := 2, stop := 3, speaker := "B" },
   { word := "c", start := 4, stop := 5, speaker := "A" }]

/-- Sort key used by `sorted(segments, key=lambda x: x['start'])`. -/
def segLE (a b : Segment) : Bool := decide (a.start ≤ b.start)

/-- One iteration of the merging loop of `merge_close_segments`
(`go_transcribe.py` lines 66-78), state = (`merged`, `current`). -/
def mergeStep (maxGap : ℚ) : List Segment × Option Segment → Segment → List Segment × Option Segment
  | (merged, none), seg => (merged, some seg)
  | (merged, some cur), seg =>
    if seg.start - cur.stop ≤ maxGap ∧ seg.speaker = cur.speaker then
      (merged, some { cur with stop := seg.stop, text := cur.text ++ " " ++ seg.text })
    else
      (merged ++ [cur], some seg)

/-- Final flush of the merging loop: `if current: merged.append(current)`. -/
def mergeFinish : List Segment × Option Segment → List Segment
  | (merged, none) => merged
  | (merged, some cur) => merged ++ [cur]

/-- `merge_close_segments(segments, max_gap)` from `go_transcribe.py`
(lines 61-83): iterate over the input sorted by `start` (Python's stable
`sorted`), coalescing a segment into the accumulator when it starts within
`max_gap` of the accumulator's end and carries the same speaker label. -/
def merge_close_segments (segments : List Segment) (maxGap : ℚ) : List Segment :=
  mergeFinish ((segments.mergeSort segLE).foldl (mergeStep maxGap) ([], none))

/-- Recursive form of the merging loop with the accumulator explicit; proofs
go through this and `foldl_mergeStep_eq`. -/
def mergeRuns (maxGap : ℚ) (cur : Segment) : List Segment → List Segment
  | [] => [cur]
  | seg :: rest =>
    if seg.start - cur.stop ≤ maxGap ∧ seg.speaker = cur.speaker then
      mergeRuns maxGap { cur with stop := seg.stop, text := cur.text ++ " " ++ seg.text } rest
    else
      cur :: mergeRuns maxGap seg rest

/-- Insertion-ordered key accumulation: the key order a Python dict acquires
as entries are first inserted. -/
def firstOccur (keys : List String) (sp : String) : List String :=
  if sp ∈ keys then keys else keys ++ [sp]

/-- Speakers in order of first appearance: iteration order of the
`speaker_stats` defaultdict in `calculate_speaker_confidence`. -/
def speakersInOrder (segments : List Segment) : List String :=
  segments.foldl (fun acc s => firstOccur acc s.speaker) []

/-- Accumulated `speaker_stats[speaker]['duration']`. -/
def speakerDuration (sp : String) (segments : List Segment) : ℚ :=
  ((segments.filter fun s => s.speaker = sp).map fun s => s.stop - s.start).sum

/-- Accumulated `speaker_stats[speaker]['segments']`. -/
def speakerCount (sp : String) (segments : List Segment) : ℕ :=
  (segments.filter fun s => s.speaker = sp).length

/-- `total_duration = sum(s['duration'] for s in speaker_stats.values())`. -/
def totalDuration (segments : List Segment) : ℚ :=
  ((speakersInOrder segments).map fun sp => speakerDuration sp segments).sum

/-- One row of the scorer's output map. -/
structure SpeakerStat where
  speaker : String
  duration : ℚ
  segments : ℕ
  confidence : ℚ
deriving DecidableEq, Repr

/-- Python exceptions that the embedded fragments can raise. -/
inductive PyError where
  | zeroDivisionError
  | valueError (msg : String)
deriving DecidableEq, Repr

/-- `calculate_speaker_confidence(segments)` from `go_transcribe.py`
(lines 85-102).  On an empty input the per-speaker loops never execute and
an empty map is returned; on a non-empty input with zero total duration the
division `stats['duration'] / total_duration` raises `ZeroDivisionError`,
made explicit here in the `Except`. -/
def calculate_speaker_confidence (segments : List Segment) :
    Except PyError (List SpeakerStat) :=
  let sps := speakersInOrder segments
  let total := totalDuration segments
  if sps.isEmpty then Except.ok []
  else if total = 0 then Except.error PyError.zeroDivisionError
  else Except.ok (sps.map fun sp =>
    { speaker := sp
      duration := speakerDuration sp segments
      segments := speakerCount sp segments
      confidence := (speakerDuration sp segments / total +
        (speakerCount sp segments : ℚ) / (segments.length : ℚ)) / 2 })

/-- Result of one run of the transcription pipeline tail: the process exit
status and the data written to the Markdown file (`none` when the run
aborts before the write). -/
structure RunResult where
  exitCode : ℕ
  markdown : Option (List Segment × List SpeakerStat)
deriving DecidableEq, Repr

/-- The speaker-assignment stage of `main` in `go_transcribe.py`
(lines 220-237) after grouping: merge close segments (default
`max_gap = 1.0`), compute speaker statistics, then
`raise ValueError("No speaker segments were created")` when
`final_segments` is empty. -/
def assignStage (tokens : List Token) : Except PyError (List Segment × List SpeakerStat) :=
  let fs := merge_close_segments (build_segments tokens) 1
  match calculate_speaker_confidence fs with
  | Except.error e => Except.error e
  | Except.ok stats =>
    if fs.isEmpty then Except.error (PyError.valueError "No speaker segments were created")
    else Except.ok (fs, stats)

/-- The surrounding control flow of `main`: any exception in the
speaker-assignment stage is caught by the generic handler, which calls
`sys.exit(1)` before the Markdown section is reached; on success the
Markdown file is written and the process ends with status 0. -/
def runPipeline (tokens : List Token) : RunResult :=
  match assignStage tokens with
  | Except.error _ => { exitCode := 1, markdown := none }
  | Except.ok out => { exitCode := 0, markdown := some out }

/-- Reduction of an integer into the signed 16-bit range, as numpy's
wrapping `int16` arithmetic performs it. -/
def toInt16 (z : ℤ) : ℤ := (z + 32768) % 65536 - 32768

/-- Elementwise `int16 + int16` in numpy: the exact sum wraps modulo
`2^16`. -/
def npAddInt16 (a b : ℤ) : ℤ := toInt16 (a + b)

/-- `np.clip(z, lo, hi)` on one sample. -/
def npClip (lo hi z : ℤ) : ℤ := max lo (min hi z)

/-- `mic_data + sys_data.flatten()` (`test_record_merge.py` line 179):
numpy 1-d addition of two `int16` arrays.  Equal lengths add elementwise;
a length-1 operand broadcasts; any other length mismatch raises
`ValueError` (shapes cannot be broadcast together). -/
def npAdd1dInt16 (a b : List ℤ) : Except PyError (List ℤ) :=
  if a.length = b.length then Except.ok (List.zipWith npAddInt16 a b)
  else
    match a, b with
    | [x], ys => Except.ok (ys.map fun y => npAddInt16 x y)
    | xs, [y] => Except.ok (xs.map fun x => npAddInt16 x y)
    | _, _ => Except.error (PyError.valueError "operands could not be broadcast together")

/-- The Mixer's per-cycle combination (`test_record_merge.py` line 179):
`np.clip(mic_data + sys_data.flatten(), -32768, 32767).astype(np.int16)`.
The final `astype` wraps again into 16-bit range (a no-op after the clip). -/
def mixChunk (mic sys : List ℤ) : Except PyError (List ℤ) :=
  (npAdd1dInt16 mic sys).map fun l => l.map fun z => toInt16 (npClip (-32768) 32767 z)

/-- The value the mixer computes for one pair of samples drawn from
equal-length chunks. -/
def mixSample (m s : ℤ) : ℤ := toInt16 (npClip (-32768) 32767 (npAddInt16 m s))

/-- Saturating mix of two samples as the specification demands: the exact
integer sum clamped to the signed 16-bit range.  Stated from the spec to be
compared against `mixSample`. -/
def satMixSample (m s : ℤ) : ℤ := npClip (-32768) 32767 (m + s)

/-- Run-based Speaker Segment Builder as the specification describes it
(spec 4.4): scan in order, skip empty-text tokens, close a run exactly when
the speaker label changes.  Stated from the spec's words, to be compared
against `build_segments`. -/
def buildRunsAux (cur : Segment) : List Token → List Segment
  | [] => [cur]
  | t :: ts =>
    if t.speaker = cur.speaker then
      buildRunsAux { cur with stop := t.stop, text := cur.text ++ " " ++ t.word } ts
    else
      cur :: buildRunsAux { speaker := t.speaker, start := t.start, stop := t.stop, text := t.word } ts

/-- Spec-side Segment Builder entry point (spec 4.4). -/
def build_segments_spec (tokens : List Token) : List Segment :=
  match tokens.filter (fun t => t.word ≠ "") with
  | [] => []
  | t :: ts => buildRunsAux { speaker := t.speaker, start := t.start, stop := t.stop, text := t.word } ts

/-- Adjacent merged segments must be separated: merging them again is
impossible because the gap exceeds `maxGap` or the speakers differ. -/
def Separated (maxGap : ℚ) (a b : Segment) : Prop :=
  ¬(b.start - a.stop ≤ maxGap ∧ b.speaker = a.speaker)

/-- A segment `o` is a run over the non-empty token-segment list `sub`:
all of `sub` carries `o`'s speaker, `o` spans from the first element's
start to the last element's end, and `o`'s text is the space-join of
`sub`'s texts in order. -/
def IsRunOf (o : Segment) (sub : List Segment) : Prop :=
  sub ≠ [] ∧ (∀ s ∈ sub, s.speaker = o.speaker) ∧
    sub.head?.map Segment.start = some o.start ∧
    sub.getLast?.map Segment.stop = some o.stop ∧
    o.text = String.intercalate " " (sub.map Segment.text)

/-! ### Helper lemmas -/

theorem intercalate_go_append (s x : String) : ∀ (as : List String) (acc : String),
    String.intercalate.go acc s (as ++ [x]) = String.intercalate.go acc s as ++ s ++ x := by
  intro as
  induction as with
  | nil => intro acc; rfl
  | cons a as ih => intro acc; rw [List.cons_append]; exact ih (acc ++ s ++ a)

theorem intercalate_append_singleton (s x : String) (l : List String) (h : l ≠ []) :
    String.intercalate s (l ++ [x]) = String.intercalate s l ++ s ++ x := by
  cases l with
  | nil => exact absurd rfl h
  | cons a as => rw [List.cons_append]; exact intercalate_go_append s x as a

theorem mem_firstOccur {x sp : String} {acc : List String} :
    x ∈ firstOccur acc sp ↔ x ∈ acc ∨ x = sp := by
  unfold firstOccur
  split
  · rename_i hmem
    constructor
    · exact Or.inl
    · rintro (h | rfl)
      · exact h
      · exact hmem
  · simp

theorem mem_foldl_firstOccur : ∀ (l : List String) (acc : List String) (x : String),
    x ∈ l.foldl firstOccur acc ↔ x ∈ acc ∨ x ∈ l := by
  intro l
  induction l with
  | nil => simp
  | cons a l ih =>
    intro acc x
    rw [List.foldl_cons, ih, mem_firstOccur]
    simp [or_assoc]

theorem mem_speakersInOrder (segs : List Segment) (x : String) :
    x ∈ speakersInOrder segs ↔ x ∈ segs.map Segment.speaker := by
  unfold speakersInOrder
  rw [← List.foldl_map, mem_foldl_firstOccur]
  simp

theorem speakersInOrder_ne_nil (segs : List Segment) (h : segs ≠ []) :
    speakersInOrder segs ≠ [] := by
  obtain ⟨s, t, rfl⟩ := List.exists_cons_of_ne_nil h
  exact List.ne_nil_of_mem ((mem_speakersInOrder (s :: t) s.speaker).2 (by simp))

/-! ### C2 — mixing saturation -/

/-- C2: the claim says mixing saturates: every mixed sample equals the exact
sum clamped to the signed 16-bit range, so `32767 + 32767 = 32767` and
`-32768 + -32768 = -32768`.  The code violates this: the numpy `int16`
addition wraps modulo `2^16` before `np.clip` runs, so full-scale positive
samples mix to `-2` and full-scale negative samples mix to `0`.  This
theorem evaluates the code at the failing inputs next to the saturating
mix the claim demands. -/
theorem mixer_wraps_at_full_scale :
    mixSample 32767 32767 = -2 ∧
    satMixSample 32767 32767 = 32767 ∧
    mixSample (-32768) (-32768) = 0 ∧
    satMixSample (-32768) (-32768) = -32768 ∧
    mixSample 32767 32767 ≠ satMixSample 32767 32767 := by
  decide

/-! ### C4 — unequal chunk lengths -/

/-- C4 counterexample: the claim says unequal-length chunks are truncated to
the shorter length and mixing succeeds, so a 2-sample mic chunk against a
3-sample system chunk should yield a 2-sample mixed chunk.  In the code no
truncation exists: numpy raises a broadcast `ValueError`. -/
theorem mixer_unequal_chunks_error_cex :
    mixChunk [0, 0] [0, 0, 0] =
      Except.error (PyError.valueError "operands could not be broadcast together") := by
  rfl

/-- C4 amended: the Mixer performs no truncation.  Chunks of equal length
mix elementwise to that common length (equivalently, the minimum).  Chunks
of unequal length are not truncated: unless one operand has length 1
(numpy broadcasting), the addition raises a broadcast `ValueError` and the
recording loop aborts through the generic handler. -/
theorem mixer_chunk_length_behavior (mic sys : List ℤ) :
    (mic.length = sys.length →
      ∃ out, mixChunk mic sys = Except.ok out ∧
        out.length = min mic.length sys.length) ∧
    (mic.length ≠ sys.length → 1 < mic.length → 1 < sys.length →
      mixChunk mic sys =
        Except.error (PyError.valueError "operands could not be broadcast together")) := by
  constructor
  · intro h
    refine ⟨(List.zipWith npAddInt16 mic sys).map fun z => toInt16 (npClip (-32768) 32767 z),
      ?_, ?_⟩
    · unfold mixChunk npAdd1dInt16
      rw [if_pos h]
      rfl
    · simp
  · intro hne h1 h2
    match mic, sys, h1, h2 with
    | a :: b :: t, c :: d :: u, _, _ =>
      unfold mixChunk npAdd1dInt16
      rw [if_neg hne]
      rfl

/-- C4 witness: the amended theorem applied at concrete chunks, on both the
equal-length branch and the mismatched-length branch. -/
theorem mixer_chunk_length_behavior_witness :
    (∃ out, mixChunk [1, 2] [3, 4] = Except.ok out ∧
      out.length = min (List.length [1, 2]) (List.length [3, 4])) ∧
    mixChunk [5, 5] [6, 6, 6] =
      Except.error (PyError.valueError "operands could not be broadcast together") :=
  ⟨(mixer_chunk_length_behavior [1, 2] [3, 4]).1 rfl,
   (mixer_chunk_length_behavior [5, 5] [6, 6, 6]).2 (by decide) (by decide) (by decide)⟩

/-! ### C3 — degenerate scorer input -/

/-- C3 counterexample: the claim says the Confidence Scorer never fails with
a raw division error on a degenerate (zero-total-duration) merged list.
But on a non-empty list whose total duration is zero, the division
`stats['duration'] / total_duration` raises a raw `ZeroDivisionError`: no
typed `DataError` exists anywhere in the code. -/
theorem scorer_zero_duration_raises_division_error :
    calculate_speaker_confidence [{ speaker := "SPEAKER_00", start := 0, stop := 0, text := "x" }] =
      Except.error PyError.zeroDivisionError := by
  norm_num [calculate_speaker_confidence, speakersInOrder, firstOccur, totalDuration,
    speakerDuration]

/-- C3 amended: on a non-empty merged list with zero total duration the
scorer raises a raw `ZeroDivisionError` (surfacing only through the
pipeline's generic exception handler), not a typed `DataError`; on an empty
list (zero total segments) the per-speaker loops never run, so the scorer
returns an empty statistics map without any error. -/
theorem scorer_degenerate_behavior (segs : List Segment) (h1 : segs ≠ [])
    (h2 : totalDuration segs = 0) :
    calculate_speaker_confidence segs = Except.error PyError.zeroDivisionError ∧
    calculate_speaker_confidence [] = Except.ok [] := by
  constructor
  · unfold calculate_speaker_confidence
    have hsp : ¬(speakersInOrder segs).isEmpty = true := by
      rw [List.isEmpty_iff]
      exact speakersInOrder_ne_nil segs h1
    rw [if_neg hsp, if_pos h2]
  · rfl

/-- C3 witness: the amended theorem applied to a concrete single-segment
list of duration zero. -/
theorem scorer_degenerate_behavior_witness :
    calculate_speaker_confidence [{ speaker := "A", start := 1, stop := 1, text := "x" }] =
      Except.error PyError.zeroDivisionError ∧
    calculate_speaker_confidence [] = Except.ok [] :=
  scorer_degenerate_behavior [{ speaker := "A", start := 1, stop := 1, text := "x" }]
    (by simp)
    (by norm_num [totalDuration, speakersInOrder, firstOccur, speakerDuration])

/-! ### Merger machinery -/

theorem foldl_mergeStep_eq (g : ℚ) : ∀ (l : List Segment) (acc : List Segment) (cur : Segment),
    mergeFinish (l.foldl (mergeStep g) (acc, some cur)) = acc ++ mergeRuns g cur l := by
  intro l
  induction l with
  | nil => intro acc cur; rfl
  | cons seg rest ih =>
    intro acc cur
    rw [List.foldl_cons]
    by_cases h : seg.start - cur.stop ≤ g ∧ seg.speaker = cur.speaker
    · rw [show mergeStep g (acc, some cur) seg =
        (acc, some { cur with stop := seg.stop, text := cur.text ++ " " ++ seg.text }) from by
          simp only [mergeStep]; rw [if_pos h]]
      rw [ih, mergeRuns, if_pos h]
    · rw [show mergeStep g (acc, some cur) seg = (acc ++ [cur], some seg) from by
        simp only [mergeStep]; rw [if_neg h]]
      rw [ih, mergeRuns, if_neg h]
      simp

theorem merge_close_eq_nil {S : List Segment} (g : ℚ) (h : S.mergeSort segLE = []) :
    merge_close_segments S g = [] := by
  unfold merge_close_segments
  rw [h]
  rfl

theorem merge_close_eq_cons {S : List Segment} (g : ℚ) {c : Segment} {t : List Segment}
    (h : S.mergeSort segLE = c :: t) :
    merge_close_segments S g = mergeRuns g c t := by
  unfold merge_close_segments
  rw [h, List.foldl_cons]
  rw [show mergeStep g ([], none) c = ([], some c) from rfl]
  rw [foldl_mergeStep_eq]
  rfl

theorem mergeRuns_head (g : ℚ) : ∀ (l : List Segment) (cur : Segment), ∃ c rest,
    mergeRuns g cur l = c :: rest ∧ c.start = cur.start ∧ c.speaker = cur.speaker := by
  intro l
  induction l with
  | nil => intro cur; exact ⟨cur, [], rfl, rfl, rfl⟩
  | cons seg rest ih =>
    intro cur
    by_cases h : seg.start - cur.stop ≤ g ∧ seg.speaker = cur.speaker
    · obtain ⟨c, r, heq, hs, hsp⟩ :=
        ih { cur with stop := seg.stop, text := cur.text ++ " " ++ seg.text }
      exact ⟨c, r, by rw [mergeRuns, if_pos h]; exact heq, hs, hsp⟩
    · exact ⟨cur, mergeRuns g seg rest, by rw [mergeRuns, if_neg h], rfl, rfl⟩

theorem mergeRuns_chain (g : ℚ) : ∀ (l : List Segment) (cur : Segment),
    List.Chain' (Separated g) (mergeRuns g cur l) := by
  intro l
  induction l with
  | nil => intro cur; simp [mergeRuns]
  | cons seg rest ih =>
    intro cur
    by_cases h : seg.start - cur.stop ≤ g ∧ seg.speaker = cur.speaker
    · rw [mergeRuns, if_pos h]
      exact ih _
    · rw [mergeRuns, if_neg h]
      rw [List.chain'_cons']
      refine ⟨?_, ih seg⟩
      intro b hb
      obtain ⟨c, r, heq, hs, hsp⟩ := mergeRuns_head g rest seg
      rw [heq] at hb
      simp only [List.head?_cons, Option.mem_def, Option.some.injEq] at hb
      subst hb
      intro hcon
      exact h ⟨by rw [← hs]; exact hcon.1, by rw [← hsp]; exact hcon.2⟩

theorem mergeRuns_start_mem (g : ℚ) : ∀ (l : List Segment) (cur : Segment),
    ∀ o ∈ mergeRuns g cur l, o.start = cur.start ∨ o.start ∈ l.map Segment.start := by
  intro l
  induction l with
  | nil =>
    intro cur o ho
    rw [mergeRuns] at ho
    simp at ho
    subst ho
    exact Or.inl rfl
  | cons seg rest ih =>
    intro cur o ho
    by_cases h : seg.start - cur.stop ≤ g ∧ seg.speaker = cur.speaker
    · rw [mergeRuns, if_pos h] at ho
      rcases ih _ o ho with h1 | h1
      · exact Or.inl h1
      · exact Or.inr (by simp [h1])
    · rw [mergeRuns, if_neg h] at ho
      rw [List.mem_cons] at ho
      rcases ho with rfl | ho
      · exact Or.inl rfl
      · rcases ih seg o ho with h1 | h1
        · exact Or.inr (by simp [h1])
        · exact Or.inr (by simp [h1])

theorem mergeRuns_pairwise (g : ℚ) : ∀ (l : List Segment) (cur : Segment),
    (cur :: l).Pairwise (fun a b => a.start ≤ b.start) →
    (mergeRuns g cur l).Pairwise (fun a b => a.start ≤ b.start) := by
  intro l
  induction l with
  | nil => intro cur _; simp [mergeRuns]
  | cons seg rest ih =>
    intro cur hp
    rw [List.pairwise_cons] at hp
    obtain ⟨hcur, hp2⟩ := hp
    rw [List.pairwise_cons] at hp2
    obtain ⟨hseg, hp3⟩ := hp2
    by_cases h : seg.start - cur.stop ≤ g ∧ seg.speaker = cur.speaker
    · rw [mergeRuns, if_pos h]
      apply ih
      rw [List.pairwise_cons]
      exact ⟨fun b hb => hcur b (List.mem_cons_of_mem seg hb), hp3⟩
    · rw [mergeRuns, if_neg h]
      rw [List.pairwise_cons]
      constructor
      · intro o ho
        rcases mergeRuns_start_mem g rest seg o ho with h1 | h1
        · rw [h1]
          exact hcur seg (List.mem_cons_self seg rest)
        · obtain ⟨b, hb, hbo⟩ := List.mem_map.1 h1
          rw [← hbo]
          exact hcur b (List.mem_cons_of_mem seg hb)
      · apply ih
        rw [List.pairwise_cons]
        exact ⟨hseg, hp3⟩

theorem mergeRuns_of_chain (g : ℚ) : ∀ (l : List Segment) (cur : Segment),
    List.Chain' (Separated g) (cur :: l) → mergeRuns g cur l = cur :: l := by
  intro l
  induction l with
  | nil => intro cur _; rfl
  | cons seg rest ih =>
    intro cur hch
    rw [List.chain'_cons] at hch
    obtain ⟨hsep, hch2⟩ := hch
    rw [mergeRuns, if_neg hsep]
    rw [ih seg hch2]

theorem segLE_trans : ∀ (a b c : Segment), segLE a b → segLE b c → segLE a c := by
  intro a b c hab hbc
  simp only [segLE, decide_eq_true_eq] at *
  exact le_trans hab hbc

theorem segLE_total : ∀ (a b : Segment), segLE a b || segLE b a := by
  intro a b
  simp only [segLE]
  rcases le_total a.start b.start with h | h <;> simp [h]

theorem mergeSort_segLE_sorted (S : List Segment) :
    (S.mergeSort segLE).Pairwise (fun a b => a.start ≤ b.start) := by
  have := List.sorted_mergeSort segLE_trans segLE_total S
  exact this.imp fun h => by simpa [segLE, decide_eq_true_eq] using h

theorem mergeSort_segLE_of_pairwise {l : List Segment}
    (h : l.Pairwise (fun a b => a.start ≤ b.start)) : l.mergeSort segLE = l :=
  List.mergeSort_of_sorted (h.imp fun hab => by simpa [segLE, decide_eq_true_eq] using hab)

/-! ### C5 — idempotence of merging -/

/-- C5: `merge_close_segments` is idempotent: re-merging an already-merged
list with the same `max_gap` returns an identical list.  The merged output
is sorted by start and adjacent segments are separated (they differ in
speaker or are more than `max_gap` apart), so a second pass sorts to the
same order and coalesces nothing. -/
theorem merge_idempotent (S : List Segment) (g : ℚ) :
    merge_close_segments (merge_close_segments S g) g = merge_close_segments S g := by
  cases hS : S.mergeSort segLE with
  | nil =>
    rw [merge_close_eq_nil g hS]
    exact merge_close_eq_nil g (by simp)
  | cons h t =>
    have h1 : merge_close_segments S g = mergeRuns g h t := merge_close_eq_cons g hS
    have hsorted : (h :: t).Pairwise (fun a b => a.start ≤ b.start) := by
      rw [← hS]; exact mergeSort_segLE_sorted S
    have hpw := mergeRuns_pairwise g t h hsorted
    have hch := mergeRuns_chain g t h
    obtain ⟨c, r, hcr, -, -⟩ := mergeRuns_head g t h
    rw [h1, hcr]
    rw [hcr] at hpw hch
    rw [merge_close_eq_cons g (by rw [mergeSort_segLE_of_pairwise hpw])]
    exact mergeRuns_of_chain g r c hch

/-! ### C8 — no cross-speaker merging -/

theorem mergeRuns_provenance (g : ℚ) : ∀ (l : List Segment) (cur : Segment)
    (subc : List Segment), IsRunOf cur subc → ∀ o ∈ mergeRuns g cur l,
    ∃ sub, IsRunOf o sub ∧ sub.Sublist (subc ++ l) := by
  intro l
  induction l with
  | nil =>
    intro cur subc hrun o ho
    rw [mergeRuns] at ho
    simp at ho
    subst ho
    exact ⟨subc, hrun, by simp⟩
  | cons seg rest ih =>
    intro cur subc hrun o ho
    obtain ⟨hne, hspk, hhead, hlast, htext⟩ := hrun
    by_cases h : seg.start - cur.stop ≤ g ∧ seg.speaker = cur.speaker
    · rw [mergeRuns, if_pos h] at ho
      have hrun2 : IsRunOf { cur with stop := seg.stop, text := cur.text ++ " " ++ seg.text }
          (subc ++ [seg]) := by
        refine ⟨by simp, ?_, ?_, ?_, ?_⟩
        · intro s hs
          rcases List.mem_append.1 hs with hs | hs
          · exact hspk s hs
          · simp at hs; subst hs; exact h.2
        · rw [List.head?_append_of_ne_nil _ hne]
          exact hhead
        · rw [List.getLast?_concat]
          rfl
        · simp only []
          rw [htext, List.map_append, List.map_singleton,
            intercalate_append_singleton _ _ _ (by simpa using hne)]
      obtain ⟨sub, hsub1, hsub2⟩ := ih _ (subc ++ [seg]) hrun2 o ho
      exact ⟨sub, hsub1, hsub2.trans (by simp)⟩
    · rw [mergeRuns, if_neg h] at ho
      rw [List.mem_cons] at ho
      rcases ho with rfl | ho
      · exact ⟨subc, ⟨hne, hspk, hhead, hlast, htext⟩,
          (List.sublist_append_left subc (seg :: rest)).trans (List.Sublist.refl _)⟩
      · have hrunseg : IsRunOf seg [seg] := ⟨by simp, by simp, rfl, rfl, rfl⟩
        obtain ⟨sub, hsub1, hsub2⟩ := ih seg [seg] hrunseg o ho
        refine ⟨sub, hsub1, hsub2.trans ?_⟩
        rw [show ([seg] ++ rest : List Segment) = seg :: rest from rfl]
        exact List.sublist_append_right subc (seg :: rest)

/-- C8: the merger never coalesces segments of different speakers: every
output segment of `merge_close_segments` is a run over a non-empty
subsequence of the sorted input whose members all carry the output's single
speaker label, the output's span runs from that subsequence's first start
to its last end, and its text is the space-join of exactly those members'
texts — regardless of the gap value, including `maxGap = 0`. -/
theorem merger_never_mixes_speakers (S : List Segment) (g : ℚ) (o : Segment)
    (ho : o ∈ merge_close_segments S g) :
    ∃ sub : List Segment, IsRunOf o sub ∧ sub.Sublist (S.mergeSort segLE) ∧
      ∀ s ∈ sub, s ∈ S := by
  cases hS : S.mergeSort segLE with
  | nil =>
    rw [merge_close_eq_nil g hS] at ho
    exact absurd ho (List.not_mem_nil o)
  | cons h t =>
    rw [merge_close_eq_cons g hS] at ho
    have hrunh : IsRunOf h [h] := ⟨by simp, by simp, rfl, rfl, rfl⟩
    obtain ⟨sub, hsub1, hsub2⟩ := mergeRuns_provenance g t h [h] hrunh o ho
    rw [show ([h] ++ t : List Segment) = h :: t from rfl] at hsub2
    refine ⟨sub, hsub1, hsub2, fun s hs => ?_⟩
    have hmem : s ∈ S.mergeSort segLE := by rw [hS]; exact hsub2.subset hs
    exact List.mem_mergeSort.1 hmem

/-- C8 witness: the theorem applied to a concrete one-segment input with
`maxGap = 0`. -/
theorem merger_never_mixes_speakers_witness :
    ∃ sub : List Segment,
      IsRunOf { speaker := "A", start := 0, stop := 1, text := "x" } sub ∧
      sub.Sublist (List.mergeSort [{ speaker := "A", start := 0, stop := 1, text := "x" }] segLE) ∧
      ∀ s ∈ sub, s ∈ [{ speaker := "A", start := 0, stop := 1, text := "x" : Segment }] :=
  merger_never_mixes_speakers [{ speaker := "A", start := 0, stop := 1, text := "x" }] 0
    { speaker := "A", start := 0, stop := 1, text := "x" }
    (by rw [merge_close_eq_cons 0 (List.mergeSort_singleton _)]; simp [mergeRuns])

/-! ### C7 — confidence bounds -/

theorem sum_map_div {α : Type} (l : List α) (f : α → ℚ) (c : ℚ) :
    (l.map fun x => f x / c).sum = (l.map f).sum / c := by
  induction l with
  | nil => simp
  | cons a l ih => simp [ih, add_div]

theorem speakerDuration_nonneg (segs : List Segment) (hse : ∀ s ∈ segs, s.start ≤ s.stop)
    (sp : String) : 0 ≤ speakerDuration sp segs := by
  apply List.sum_nonneg
  intro x hx
  obtain ⟨s, hs, rfl⟩ := List.mem_map.1 hx
  exact sub_nonneg.2 (hse s (List.mem_of_mem_filter hs))

/-- C7: on any non-empty merged list whose segments all satisfy
`start ≤ end` and whose total duration is positive, the scorer succeeds,
the per-speaker duration shares sum to exactly 1, and every confidence —
the unweighted average of the duration share and the segment-count share —
lies in `[0, 1]`. -/
theorem confidence_shares_sum_one_and_bounded (segs : List Segment)
    (hne : segs ≠ []) (hse : ∀ s ∈ segs, s.start ≤ s.stop)
    (hpos : 0 < totalDuration segs) :
    ∃ stats, calculate_speaker_confidence segs = Except.ok stats ∧
      (stats.map fun st => st.duration / totalDuration segs).sum = 1 ∧
      ∀ st ∈ stats, 0 ≤ st.confidence ∧ st.confidence ≤ 1 := by
  have hsp := speakersInOrder_ne_nil segs hne
  have hT : totalDuration segs ≠ 0 := hpos.ne'
  refine ⟨(speakersInOrder segs).map fun sp =>
    { speaker := sp
      duration := speakerDuration sp segs
      segments := speakerCount sp segs
      confidence := (speakerDuration sp segs / totalDuration segs +
        (speakerCount sp segs : ℚ) / (segs.length : ℚ)) / 2 }, ?_, ?_, ?_⟩
  · simp only [calculate_speaker_confidence]
    rw [if_neg (by rw [List.isEmpty_iff]; exact hsp), if_neg hT]
  · rw [List.map_map]
    rw [show ((fun st : SpeakerStat => st.duration / totalDuration segs) ∘ fun sp =>
        ({ speaker := sp, duration := speakerDuration sp segs,
           segments := speakerCount sp segs,
           confidence := (speakerDuration sp segs / totalDuration segs +
             (speakerCount sp segs : ℚ) / (segs.length : ℚ)) / 2 } : SpeakerStat)) =
        fun sp => speakerDuration sp segs / totalDuration segs from rfl]
    rw [sum_map_div]
    rw [show ((speakersInOrder segs).map fun sp => speakerDuration sp segs).sum =
      totalDuration segs from rfl]
    exact div_self hT
  · intro st hst
    obtain ⟨sp, hspm, rfl⟩ := List.mem_map.1 hst
    simp only []
    have hd0 : 0 ≤ speakerDuration sp segs := speakerDuration_nonneg segs hse sp
    have hdT : speakerDuration sp segs ≤ totalDuration segs := by
      apply List.single_le_sum (l := (speakersInOrder segs).map fun sp' => speakerDuration sp' segs)
      · intro x hx
        obtain ⟨sp', _, rfl⟩ := List.mem_map.1 hx
        exact speakerDuration_nonneg segs hse sp'
      · exact List.mem_map_of_mem _ hspm
    have hn : (0 : ℚ) < segs.length := by
      exact_mod_cast List.length_pos.2 hne
    have hcnt : (speakerCount sp segs : ℚ) ≤ (segs.length : ℚ) :=
      Nat.cast_le.2 (List.length_filter_le _ _)
    have ha1 : speakerDuration sp segs / totalDuration segs ≤ 1 := (div_le_one hpos).2 hdT
    have ha0 : 0 ≤ speakerDuration sp segs / totalDuration segs := div_nonneg hd0 hpos.le
    have hb1 : (speakerCount sp segs : ℚ) / (segs.length : ℚ) ≤ 1 := (div_le_one hn).2 hcnt
    have hb0 : 0 ≤ (speakerCount sp segs : ℚ) / (segs.length : ℚ) :=
      div_nonneg (Nat.cast_nonneg _) hn.le
    constructor <;> linarith

/-- C7 witness: the theorem applied to a concrete one-segment list of
positive duration. -/
theorem confidence_shares_sum_one_and_bounded_witness :
    ∃ stats, calculate_speaker_confidence
        [{ speaker := "A", start := 0, stop := 1, text := "x" }] = Except.ok stats ∧
      (stats.map fun st => st.duration /
        totalDuration [{ speaker := "A", start := 0, stop := 1, text := "x" }]).sum = 1 ∧
      ∀ st ∈ stats, 0 ≤ st.confidence ∧ st.confidence ≤ 1 :=
  confidence_shares_sum_one_and_bounded
    [{ speaker := "A", start := 0, stop := 1, text := "x" }]
    (by simp)
    (by intro s hs; rw [List.mem_singleton] at hs; subst hs; norm_num)
    (by norm_num [totalDuration, speakersInOrder, firstOccur, speakerDuration])

/-! ### C9 — empty token list -/

/-- C9: when no segments survive grouping, the pipeline raises the
data error `ValueError("No speaker segments were created")`, the process
exits with status 1, and no Markdown output is produced.  (The spec's
`DataError` is this `ValueError`.) -/
theorem empty_tokens_data_error (tokens : List Token)
    (h : build_segments tokens = []) :
    assignStage tokens =
      Except.error (PyError.valueError "No speaker segments were created") ∧
    runPipeline tokens = { exitCode := 1, markdown := none } := by
  have hm : merge_close_segments (build_segments tokens) 1 = [] := by
    rw [h]
    exact merge_close_eq_nil 1 (by simp)
  have ha : assignStage tokens =
      Except.error (PyError.valueError "No speaker segments were created") := by
    simp only [assignStage]
    rw [hm]
    rfl
  refine ⟨ha, ?_⟩
  simp only [runPipeline]
  rw [ha]

/-- C9 witness: the theorem applied to the empty token list. -/
theorem empty_tokens_data_error_witness :
    assignStage [] =
      Except.error (PyError.valueError "No speaker segments were created") ∧
    runPipeline [] = { exitCode := 1, markdown := none } :=
  empty_tokens_data_error [] rfl

/-! ### C6 — concrete scenario -/

/-- C6: on the three tokens `("Hi", 0, 0.5, A)`, `("there", 0.5, 0.9, A)`,
`("Hello", 1, 1.4, B)` with `max_gap = 1`, the build-merge stages produce
exactly the two segments `A : [0, 0.9] "Hi there"` and
`B : [1, 1.4] "Hello"`, and the scorer computes
`confidence(A) = 31/52 ≈ 0.596` and `confidence(B) = 21/52 ≈ 0.404`. -/
theorem pipeline_scenario_hi_there :
    merge_close_segments (build_segments
      [{ word := "Hi", start := 0, stop := 1/2, speaker := "A" },
       { word := "there", start := 1/2, stop := 9/10, speaker := "A" },
       { word := "Hello", start := 1, stop := 7/5, speaker := "B" }]) 1 =
      [{ speaker := "A", start := 0, stop := 9/10, text := "Hi there" },
       { speaker := "B", start := 1, stop := 7/5, text := "Hello" }] ∧
    calculate_speaker_confidence
      [{ speaker := "A", start := 0, stop := 9/10, text := "Hi there" },
       { speaker := "B", start := 1, stop := 7/5, text := "Hello" }] =
      Except.ok
        [{ speaker := "A", duration := 9/10, segments := 1, confidence := 31/52 },
         { speaker := "B", duration := 2/5, segments := 1, confidence := 21/52 }] ∧
    |(31 : ℚ)/52 - 596/1000| < 1/1000 ∧ |(21 : ℚ)/52 - 404/1000| < 1/1000 := by
  refine ⟨?_, ?_, by rw [abs_lt]; constructor <;> norm_num, by rw [abs_lt]; constructor <;> norm_num⟩
  · have hb : build_segments
        [{ word := "Hi", start := 0, stop := 1/2, speaker := "A" },
         { word := "there", start := 1/2, stop := 9/10, speaker := "A" },
         { word := "Hello", start := 1, stop := 7/5, speaker := "B" }] =
        [{ speaker := "A", start := 0, stop := 9/10, text := "Hi there" },
         { speaker := "B", start := 1, stop := 7/5, text := "Hello" }] := rfl
    rw [hb]
    rw [merge_close_eq_cons 1 (mergeSort_segLE_of_pairwise (by
      rw [List.pairwise_cons]
      refine ⟨?_, List.pairwise_singleton _ _⟩
      intro b hb
      rw [List.mem_singleton] at hb
      subst hb
      norm_num))]
    rw [mergeRuns, if_neg (by simp)]
    rfl
  · have hBA : ("B" = "A") = False := eq_false (by decide)
    have hAB : ("A" = "B") = False := eq_false (by decide)
    norm_num [calculate_speaker_confidence, speakersInOrder, firstOccur, totalDuration,
      speakerDuration, speakerCount, hBA, hAB]

/-! ### C10 — permutation invariance of merging -/

/-- C10 counterexample: two same-speaker segments with equal starts.
Python's `sorted` is stable, so the two orders of presentation survive the
sort, and the merged texts come out in different orders: the claim that
`merge_close_segments` is insensitive to input order is false. -/
theorem merge_order_sensitive_cex :
    ([{ speaker := "A", start := 0, stop := 1, text := "y" },
      { speaker := "A", start := 0, stop := 1, text := "x" }] : List Segment).Perm
      [{ speaker := "A", start := 0, stop := 1, text := "x" },
       { speaker := "A", start := 0, stop := 1, text := "y" }] ∧
    merge_close_segments
      [{ speaker := "A", start := 0, stop := 1, text := "x" },
       { speaker := "A", start := 0, stop := 1, text := "y" }] 0 =
      [{ speaker := "A", start := 0, stop := 1, text := "x y" }] ∧
    merge_close_segments
      [{ speaker := "A", start := 0, stop := 1, text := "y" },
       { speaker := "A", start := 0, stop := 1, text := "x" }] 0 =
      [{ speaker := "A", start := 0, stop := 1, text := "y x" }] ∧
    merge_close_segments
      [{ speaker := "A", start := 0, stop := 1, text := "y" },
       { speaker := "A", start := 0, stop := 1, text := "x" }] 0 ≠
    merge_close_segments
      [{ speaker := "A", start := 0, stop := 1, text := "x" },
       { speaker := "A", start := 0, stop := 1, text := "y" }] 0 := by
  have hs1 : merge_close_segments
      [{ speaker := "A", start := 0, stop := 1, text := "x" },
       { speaker := "A", start := 0, stop := 1, text := "y" }] 0 =
      [{ speaker := "A", start := 0, stop := 1, text := "x y" }] := by
    rw [merge_close_eq_cons 0 (mergeSort_segLE_of_pairwise (by
      rw [List.pairwise_cons]
      exact ⟨fun b hb => by rw [List.mem_singleton] at hb; subst hb; norm_num,
        List.pairwise_singleton _ _⟩))]
    rw [mergeRuns, if_pos ⟨by norm_num, rfl⟩]
    rfl
  have hs2 : merge_close_segments
      [{ speaker := "A", start := 0, stop := 1, text := "y" },
       { speaker := "A", start := 0, stop := 1, text := "x" }] 0 =
      [{ speaker := "A", start := 0, stop := 1, text := "y x" }] := by
    rw [merge_close_eq_cons 0 (mergeSort_segLE_of_pairwise (by
      rw [List.pairwise_cons]
      exact ⟨fun b hb => by rw [List.mem_singleton] at hb; subst hb; norm_num,
        List.pairwise_singleton _ _⟩))]
    rw [mergeRuns, if_pos ⟨by norm_num, rfl⟩]
    rfl
  refine ⟨List.Perm.swap _ _ _, hs1, hs2, ?_⟩
  rw [hs1, hs2]
  intro h
  rw [List.cons.injEq] at h
  exact absurd (congrArg Segment.text h.1) (by decide)

/-- C10 amended: the sort inside `merge_close_segments` makes the result
insensitive to input order whenever the segment starts are pairwise
distinct — the counterexample needs two segments sharing a start, where
only the stable-sort tie order differs.  For distinct starts, every
permutation of the input merges to the identical list, so the spec's
sorted-input precondition is not needed in that case. -/
theorem merge_perm_invariant_distinct_starts (S P : List Segment) (g : ℚ)
    (hperm : P.Perm S) (hd : S.Pairwise fun a b => a.start ≠ b.start) :
    merge_close_segments P g = merge_close_segments S g := by
  suffices h : P.mergeSort segLE = S.mergeSort segLE by
    unfold merge_close_segments
    rw [h]
  have hS := mergeSort_segLE_sorted S
  have hP := mergeSort_segLE_sorted P
  have hpermS : (S.mergeSort segLE).Perm S := List.mergeSort_perm S segLE
  have hpermP : (P.mergeSort segLE).Perm S := (List.mergeSort_perm P segLE).trans hperm
  have hdS : (S.mergeSort segLE).Pairwise fun a b => a.start ≠ b.start :=
    (hpermS.pairwise_iff (fun h e => h e.symm)).2 hd
  have hdP : (P.mergeSort segLE).Pairwise fun a b => a.start ≠ b.start :=
    (hpermP.pairwise_iff (fun h e => h e.symm)).2 hd
  have hltS : (S.mergeSort segLE).Pairwise fun a b => a.start < b.start :=
    (hS.and hdS).imp fun h => lt_of_le_of_ne h.1 h.2
  have hltP : (P.mergeSort segLE).Pairwise fun a b => a.start < b.start :=
    (hP.and hdP).imp fun h => lt_of_le_of_ne h.1 h.2
  haveI : IsAntisymm Segment (fun a b => a.start < b.start) :=
    ⟨fun _ _ h1 h2 => absurd (h1.trans h2) (lt_irrefl _)⟩
  exact List.eq_of_perm_of_sorted (hpermP.trans hpermS.symm) hltP hltS

/-- C10 witness: the amended theorem applied to a concrete two-segment list
with distinct starts and its swap. -/
theorem merge_perm_invariant_distinct_starts_witness :
    merge_close_segments
      [{ speaker := "B", start := 2, stop := 3, text := "y" },
       { speaker := "A", start := 0, stop := 1, text := "x" }] 0 =
    merge_close_segments
      [{ speaker := "A", start := 0, stop := 1, text := "x" },
       { speaker := "B", start := 2, stop := 3, text := "y" }] 0 :=
  merge_perm_invariant_distinct_starts _ _ 0 (List.Perm.swap _ _ _)
    (by
      rw [List.pairwise_cons]
      exact ⟨fun b hb => by rw [List.mem_singleton] at hb; subst hb; norm_num,
        List.pairwise_singleton _ _⟩)

/-! ### C1 — grouping machinery -/

theorem insertWord_fst (acc : List (String × List Token)) (sp : String) (t : Token) :
    (insertWord acc sp t).map Prod.fst = firstOccur (acc.map Prod.fst) sp := by
  induction acc with
  | nil => simp [insertWord, firstOccur]
  | cons p rest ih =>
    obtain ⟨k, ws⟩ := p
    by_cases h : k = sp
    · subst h
      simp [insertWord, firstOccur]
    · simp only [insertWord, if_neg h, List.map_cons, ih, firstOccur]
      by_cases hm : sp ∈ rest.map Prod.fst
      · rw [if_pos hm, if_pos (by simp [hm])]
      · rw [if_neg hm, if_neg (by simp [hm, Ne.symm h])]
        simp

theorem insertWord_lookup (acc : List (String × List Token)) (sp : String) (t : Token)
    (k : String) :
    lookupGroup k (insertWord acc sp t) =
      if k = sp then lookupGroup k acc ++ [t] else lookupGroup k acc := by
  induction acc with
  | nil =>
    by_cases h : k = sp
    · subst h; simp [insertWord, lookupGroup]
    · simp [insertWord, lookupGroup, h, Ne.symm h]
  | cons p rest ih =>
    obtain ⟨k', ws⟩ := p
    by_cases h1 : k' = sp
    · subst h1
      by_cases h2 : k' = k
      · subst h2; simp [insertWord, lookupGroup]
      · simp [insertWord, lookupGroup, h2, Ne.symm h2]
    · by_cases h2 : k' = k
      · subst h2
        simp [insertWord, lookupGroup, h1, Ne.symm h1]
      · simp [insertWord, lookupGroup, h1, h2, ih]

theorem foldl_insertWord_fst : ∀ (f : List Token) (acc : List (String × List Token)),
    ((f.foldl (fun a t => insertWord a t.speaker t) acc).map Prod.fst) =
      f.foldl (fun a t => firstOccur a t.speaker) (acc.map Prod.fst) := by
  intro f
  induction f with
  | nil => intro acc; rfl
  | cons t f ih =>
    intro acc
    rw [List.foldl_cons, List.foldl_cons, ih, insertWord_fst]

theorem foldl_insertWord_lookup : ∀ (f : List Token) (acc : List (String × List Token))
    (sp : String),
    lookupGroup sp (f.foldl (fun a t => insertWord a t.speaker t) acc) =
      lookupGroup sp acc ++ f.filter (fun t => t.speaker = sp) := by
  intro f
  induction f with
  | nil => intro acc sp; simp
  | cons t f ih =>
    intro acc sp
    rw [List.foldl_cons, ih, insertWord_lookup, List.filter_cons]
    by_cases h : sp = t.speaker
    · rw [if_pos h, if_pos (by simp [h.symm])]
      simp
    · rw [if_neg h, if_neg (by simpa using fun e => h e.symm)]

theorem groupWords_filter : ∀ (ts : List Token) (acc : List (String × List Token)),
    ts.foldl (fun a t => if t.word ≠ "" then insertWord a t.speaker t else a) acc =
      (ts.filter fun t => t.word ≠ "").foldl (fun a t => insertWord a t.speaker t) acc := by
  intro ts
  induction ts with
  | nil => intro acc; rfl
  | cons t ts ih =>
    intro acc
    rw [List.foldl_cons, List.filter_cons]
    by_cases h : t.word ≠ ""
    · rw [if_pos h, if_pos (by simpa using h), List.foldl_cons]
      exact ih _
    · rw [if_neg h, if_neg (by simpa using h)]
      exact ih acc

theorem nodup_foldl_firstOccur : ∀ (l : List String) (acc : List String),
    acc.Nodup → (l.foldl firstOccur acc).Nodup := by
  intro l
  induction l with
  | nil => intro acc h; exact h
  | cons a l ih =>
    intro acc h
    rw [List.foldl_cons]
    apply ih
    unfold firstOccur
    split
    · exact h
    · rename_i hm
      simp [List.nodup_append, h, hm]

theorem assoc_reconstruct : ∀ (acc : List (String × List Token)),
    (acc.map Prod.fst).Nodup →
    acc = (acc.map Prod.fst).map fun k => (k, lookupGroup k acc) := by
  intro acc
  induction acc with
  | nil => intro _; rfl
  | cons p rest ih =>
    intro h
    obtain ⟨k, ws⟩ := p
    rw [List.map_cons] at h
    rw [List.nodup_cons] at h
    obtain ⟨hk, hrest⟩ := h
    rw [List.map_cons, List.map_cons]
    congr 1
    · simp [lookupGroup]
    · have hcg : ∀ k' ∈ rest.map Prod.fst,
          (k', lookupGroup k' ((k, ws) :: rest)) = (k', lookupGroup k' rest) := by
        intro k' hk'
        have hne : ¬ k = k' := fun e => hk (e ▸ hk')
        simp [lookupGroup, hne]
      rw [List.map_congr_left hcg]
      exact ih hrest

theorem groupWords_eq (tokens : List Token) :
    groupWords tokens =
      ((tokens.filter fun t => t.word ≠ "").foldl (fun a t => firstOccur a t.speaker) []).map
        fun sp => (sp, (tokens.filter fun t => t.word ≠ "").filter fun t => t.speaker = sp) := by
  have h1 : groupWords tokens =
      (tokens.filter fun t => t.word ≠ "").foldl (fun a t => insertWord a t.speaker t) [] := by
    unfold groupWords
    exact groupWords_filter tokens []
  have hkeys : (groupWords tokens).map Prod.fst =
      (tokens.filter fun t => t.word ≠ "").foldl (fun a t => firstOccur a t.speaker) [] := by
    rw [h1]
    exact foldl_insertWord_fst _ []
  have hnd : ((groupWords tokens).map Prod.fst).Nodup := by
    rw [hkeys, ← List.foldl_map]
    exact nodup_foldl_firstOccur _ [] List.nodup_nil
  have h2 := assoc_reconstruct (groupWords tokens) hnd
  rw [hkeys] at h2
  rw [h2]
  apply List.map_congr_left
  intro sp _
  rw [h1, foldl_insertWord_lookup]
  simp [lookupGroup]

theorem filterMap_mkSegment_speaker : ∀ (ord : List String) (F : String → List Token),
    (∀ sp ∈ ord, F sp ≠ []) →
    ((ord.filterMap fun sp => mkSegmentOfGroup sp (F sp)).map Segment.speaker) = ord := by
  intro ord
  induction ord with
  | nil => intro F _; rfl
  | cons sp rest ih =>
    intro F h
    obtain ⟨w, ws, hw⟩ := List.exists_cons_of_ne_nil (h sp (List.mem_cons_self sp rest))
    have hsome : mkSegmentOfGroup sp (F sp) =
        some { speaker := sp, start := w.start, stop := (ws.getLastD w).stop,
               text := String.intercalate " " ((w :: ws).map Token.word) } := by
      rw [hw]
      rfl
    rw [@List.filterMap_cons_some String Segment (fun sp => mkSegmentOfGroup sp (F sp)) sp rest
      _ hsome]
    rw [List.map_cons]
    rw [ih F (fun sp' hsp' => h sp' (List.mem_cons_of_mem _ hsp'))]

/-! ### C1 — the Segment Builder claim -/

/-- C1 counterexample: on a token sequence where speaker A is interrupted
by speaker B and then speaks again, the spec's run-based builder produces
three segments (A, B, A), but the code groups all of a speaker's words into
one dict entry and emits two segments — A's single segment spans the
interruption, with its two runs' texts joined. -/
theorem builder_groups_by_speaker_cex :
    build_segments interruptedTokens =
      [{ speaker := "A", start := 0, stop := 5, text := "a c" },
       { speaker := "B", start := 2, stop := 3, text := "b" }] ∧
    build_segments_spec interruptedTokens =
      [{ speaker := "A", start := 0, stop := 1, text := "a" },
       { speaker := "B", start := 2, stop := 3, text := "b" },
       { speaker := "A", start := 4, stop := 5, text := "c" }] ∧
    build_segments interruptedTokens ≠ build_segments_spec interruptedTokens := by
  refine ⟨rfl, rfl, fun h => ?_⟩
  rw [show build_segments interruptedTokens =
      [{ speaker := "A", start := 0, stop := 5, text := "a c" },
       { speaker := "B", start := 2, stop := 3, text := "b" }] from rfl,
    show build_segments_spec interruptedTokens =
      [{ speaker := "A", start := 0, stop := 1, text := "a" },
       { speaker := "B", start := 2, stop := 3, text := "b" },
       { speaker := "A", start := 4, stop := 5, text := "c" }] from rfl] at h
  have hlen := congrArg List.length h
  simp at hlen

/-- C1 amended: the Segment Builder emits exactly one `SpeakerSegment` per
distinct speaker among the non-empty-text tokens, in order of each
speaker's first appearance; that segment aggregates all of the speaker's
tokens — start of the speaker's first token, end of the speaker's last
token, all the speaker's token texts joined in original order by single
spaces.  A speaker who talks, is interrupted, and talks again therefore
yields one spanning segment, not two. -/
theorem builder_one_segment_per_speaker (tokens : List Token) :
    (build_segments tokens).map Segment.speaker =
      (tokens.filter fun t => t.word ≠ "").foldl (fun acc t => firstOccur acc t.speaker) [] ∧
    ∀ seg ∈ build_segments tokens,
      ∃ w ws,
        ((tokens.filter fun t => t.word ≠ "").filter fun t => t.speaker = seg.speaker) =
          w :: ws ∧
        seg.start = w.start ∧ seg.stop = (ws.getLastD w).stop ∧
        seg.text = String.intercalate " " ((w :: ws).map Token.word) := by
  have hb : build_segments tokens =
      ((tokens.filter fun t => t.word ≠ "").foldl (fun a t => firstOccur a t.speaker) []).filterMap
        fun sp => mkSegmentOfGroup sp
          ((tokens.filter fun t => t.word ≠ "").filter fun t => t.speaker = sp) := by
    unfold build_segments
    rw [groupWords_eq, List.filterMap_map]
    rfl
  have hcov : ∀ sp ∈ (tokens.filter fun t => t.word ≠ "").foldl
      (fun a t => firstOccur a t.speaker) [],
      ((tokens.filter fun t => t.word ≠ "").filter fun t => t.speaker = sp) ≠ [] := by
    intro sp hsp
    rw [← List.foldl_map] at hsp
    have hsp2 : sp ∈ (tokens.filter fun t => t.word ≠ "").map Token.speaker :=
      ((mem_foldl_firstOccur _ [] sp).1 hsp).resolve_left (by simp)
    obtain ⟨t, ht, rfl⟩ := List.mem_map.1 hsp2
    exact List.ne_nil_of_mem (List.mem_filter.2 ⟨ht, by simp⟩)
  constructor
  · rw [hb]
    exact filterMap_mkSegment_speaker _ _ hcov
  · intro seg hseg
    rw [hb] at hseg
    obtain ⟨sp, hsp, hmk⟩ := List.mem_filterMap.1 hseg
    obtain ⟨w, ws, hw⟩ := List.exists_cons_of_ne_nil (hcov sp hsp)
    rw [hw] at hmk
    simp only [mkSegmentOfGroup, Option.some.injEq] at hmk
    subst hmk
    exact ⟨w, ws, hw, rfl, rfl, rfl⟩

/-- C1 witness: the amended theorem applied to the interrupted-speaker
token sequence, at speaker A's single spanning output segment. -/
theorem builder_one_segment_per_speaker_witness :
    ∃ w ws,
      ((interruptedTokens.filter fun t => t.word ≠ "").filter fun t =>
        t.speaker = ({ speaker := "A", start := 0, stop := 5, text := "a c" } : Segment).speaker) =
        w :: ws ∧
      ({ speaker := "A", start := 0, stop := 5, text := "a c" } : Segment).start = w.start ∧
      ({ speaker := "A", start := 0, stop := 5, text := "a c" } : Segment).stop =
        (ws.getLastD w).stop ∧
      ({ speaker := "A", start := 0, stop := 5, text := "a c" } : Segment).text =
        String.intercalate " " ((w :: ws).map Token.word) :=
  (builder_one_segment_per_speaker interruptedTokens).2
    { speaker := "A", start := 0, stop := 5, text := "a c" }
    (by
      rw [show build_segments interruptedTokens =
          [{ speaker := "A", start := 0, stop := 5, text := "a c" },
           { speaker := "B", start := 2, stop := 3, text := "b" }] from rfl]
      exact List.mem_cons_self _ _)

end WhisperMeet
